import Mathlib

/-!
Shallow embedding of the `mbuf` module of ccommon (`src/cc_mbuf.c`):
a fixed-capacity pooled byte buffer with read/write cursors.

Pointers are modelled as natural-number addresses.  A buffer occupies the
absolute address range `[base, base + cap)`; the C pointers translate as
`start = base`, `end = base + cap`, `rpos = base + Mbuf.rpos`,
`wpos = base + Mbuf.wpos` (the cursors are stored as offsets from `start`).
`data i` is the byte at absolute address `base + i`, meaningful for `i < cap`.

A fatal `ASSERT` is modelled as the `none` result of an `Option`-valued
operation: the assert aborts before any mutation, so the fatal path carries no
updated buffer.  `cc_memcpy`/`cc_memmove` (thin wrappers over the libc
routines, declared in `cc_mm.h`) are modelled by functional array update;
for `cc_memmove` the update reads the pre-state, which is exactly the
overlap-safe move semantics.  The allocator collaborator `cc_alloc` is
modelled as an `Option` argument: `none` is allocation failure, and a
successful allocation carries the chunk's base address together with the
uninitialized junk found in the fresh memory (contents and cursor fields),
since `mbuf_create` leaves `rpos`/`wpos` untouched.
-/

/-- An mbuf (`struct mbuf`): `base` is the absolute address of `start`,
`cap` is `end - start` (the body size, `mbuf_offset`), `rpos`/`wpos` are the
read/write cursors as offsets from `start`, and `data i` is the byte at
absolute address `base + i`. -/
structure Mbuf where
  base : Nat
  cap : Nat
  rpos : Nat
  wpos : Nat
  data : Nat → Nat

/-- The module-wide state of `cc_mbuf.c`: the globals `mbuf_chunk_size` and
`mbuf_offset`, and the free pool `mbufp` as the list of pooled buffers with
the head first to be handed out. -/
structure MbufState where
  chunk_size : Nat
  offset : Nat
  free : List Mbuf

/-- The cursor ordering invariant `start ≤ rpos ≤ wpos ≤ end`; in offsets
from `start`, `start ≤ rpos` is `0 ≤ rpos`, automatic over `Nat`. -/
def mbuf_inv (m : Mbuf) : Prop :=
  m.rpos ≤ m.wpos ∧ m.wpos ≤ m.cap

instance (m : Mbuf) : Decidable (mbuf_inv m) :=
  inferInstanceAs (Decidable (_ ∧ _))

/-- `mbuf_reset` (src/cc_mbuf.c:96-101): `rpos = wpos = start`. -/
def mbuf_reset (m : Mbuf) : Mbuf :=
  { m with rpos := 0, wpos := 0 }

/-- `mbuf_rsize` (src/cc_mbuf.c:106-112): `wpos - rpos`.  The C routine
asserts `wpos ≥ rpos` and casts the pointer difference to `uint32_t`; under
that asserted precondition the value coincides with `Nat` subtraction. -/
def mbuf_rsize (m : Mbuf) : Nat :=
  m.wpos - m.rpos

/-- `mbuf_wsize` (src/cc_mbuf.c:117-123): `end - wpos`, under the asserted
precondition `end ≥ wpos`. -/
def mbuf_wsize (m : Mbuf) : Nat :=
  m.cap - m.wpos

/-- `mbuf_capacity` (src/cc_mbuf.c:128-132): returns the global
`mbuf_offset`. -/
def mbuf_capacity (st : MbufState) : Nat :=
  st.offset

/-- Modelled from the spec: `mbuf_full` (declared in `cc_mbuf.h`, not under
src/) — a buffer is full when its write cursor has reached `end`, i.e. no
writable space remains. -/
def mbuf_full (m : Mbuf) : Prop :=
  m.wpos = m.cap

instance (m : Mbuf) : Decidable (mbuf_full m) :=
  inferInstanceAs (Decidable (_ = _))

/-- The result of a successful `cc_alloc` call: the chunk's base address,
the junk contents of the fresh memory, and the junk values that the
uninitialized `rpos`/`wpos` fields happen to hold. -/
structure AllocResult where
  buf : Nat
  mem : Nat → Nat
  junk_rpos : Nat
  junk_wpos : Nat

/-- `mbuf_create` (src/cc_mbuf.c:58-74): on allocation failure returns NULL
(`none`); otherwise `start = buf`, `end = buf + mbuf_offset` (so
`cap = mbuf_offset`), and `rpos`/`wpos` are left uninitialized (junk). -/
def mbuf_create (st : MbufState) (alloc : Option AllocResult) : Option Mbuf :=
  match alloc with
  | none => none
  | some a =>
      some { base := a.buf, cap := st.offset, rpos := a.junk_rpos,
             wpos := a.junk_wpos, data := a.mem }

/-- Modelled from the spec: `FREEPOOL_BORROW` (`cc_pool.h`, not under src/) —
"if the free list is non-empty, detaches and returns its head; otherwise
calls Buffer.create()". -/
def pool_draw (st : MbufState) (alloc : Option AllocResult) :
    Option Mbuf × MbufState :=
  match st.free with
  | b :: rest => (some b, { st with free := rest })
  | [] => (mbuf_create st alloc, st)

/-- `mbuf_borrow` (src/cc_mbuf.c:269-286): draw from the pool (or create);
on NULL return `none`; otherwise reset the buffer and return it. -/
def mbuf_borrow (st : MbufState) (alloc : Option AllocResult) :
    Option (Mbuf × MbufState) :=
  match pool_draw st alloc with
  | (none, _) => none
  | (some m, st') => some (mbuf_reset m, st')

/-- `mbuf_copy` (src/cc_mbuf.c:190-205).  `addr` is the absolute source
address and `src a` the byte stored at absolute address `a`.  The `n = 0`
early return precedes both asserts; the space assert
`!mbuf_full(mbuf) && n <= mbuf_wsize(mbuf)` and the overlap assert
`addr < mbuf->start || addr >= mbuf->end` both precede the `cc_memcpy`, so
the fatal path (`none`) occurs before any mutation. -/
def mbuf_copy (m : Mbuf) (addr : Nat) (src : Nat → Nat) (n : Nat) :
    Option Mbuf :=
  if n = 0 then
    some m
  else if ¬ (¬ mbuf_full m ∧ n ≤ mbuf_wsize m) then
    none
  else if ¬ (addr < m.base ∨ m.base + m.cap ≤ addr) then
    none
  else
    some { m with
           data := fun i =>
             if m.wpos ≤ i ∧ i < m.wpos + n then src (addr + (i - m.wpos))
             else m.data i,
           wpos := m.wpos + n }

/-- `struct bstring` (`cc_bstring.h`, not under src/): a (length, pointer)
pair describing an externally owned byte span; `addr` is the absolute
address of its data pointer. -/
structure BString where
  len : Nat
  addr : Nat

/-- `mbuf_copy_bstring` (src/cc_mbuf.c:207-211): forwards to `mbuf_copy`. -/
def mbuf_copy_bstring (m : Mbuf) (src : Nat → Nat) (bstr : BString) :
    Option Mbuf :=
  mbuf_copy m bstr.addr src bstr.len

/-- `mbuf_lshift` (src/cc_mbuf.c:159-168): `cc_memmove(start, rpos, sz)`
with `sz = mbuf_rsize`, then `rpos = start`, `wpos = start + sz`.  The
functional update reads the pre-state, which is the overlap-safe memmove
semantics. -/
def mbuf_lshift (m : Mbuf) : Mbuf :=
  { m with
    data := fun i =>
      if i < mbuf_rsize m then m.data (m.rpos + i) else m.data i,
    rpos := 0,
    wpos := mbuf_rsize m }

/-- `mbuf_rshift` (src/cc_mbuf.c:173-182): `cc_memmove(end - sz, rpos, sz)`
with `sz = mbuf_rsize`, then `rpos = end - sz`, `wpos = end`. -/
def mbuf_rshift (m : Mbuf) : Mbuf :=
  { m with
    data := fun i =>
      if m.cap - mbuf_rsize m ≤ i ∧ i < m.cap then
        m.data (m.rpos + (i - (m.cap - mbuf_rsize m)))
      else m.data i,
    rpos := m.cap - mbuf_rsize m,
    wpos := m.cap }

/-- The `if (cb != NULL) cb(nbuf, cbarg);` step of `mbuf_split`
(src/cc_mbuf.c:229-232): the optional precopy callback applied to the new
buffer (`cbarg` is folded into the Lean function). -/
def precopy (cb : Option (Mbuf → Mbuf)) (nbuf : Mbuf) : Mbuf :=
  match cb with
  | none => nbuf
  | some f => f nbuf

/-- `mbuf_split` (src/cc_mbuf.c:218-246).  `addr` is the absolute cut
address inside `m`; `cb` the optional precopy callback mutating the new
buffer.  `some (m, none, st)` models the NULL return when the borrow fails
(the original buffer and pool untouched, the callback not invoked);
`none` models the fatal path of the inner `mbuf_copy`; on success,
`sz = wpos - addr` bytes are copied into the new buffer, reading `m`'s
memory at the source addresses, and `m`'s `wpos` is set to `addr`. -/
def mbuf_split (st : MbufState) (alloc : Option AllocResult) (m : Mbuf)
    (addr : Nat) (cb : Option (Mbuf → Mbuf)) :
    Option (Mbuf × Option Mbuf × MbufState) :=
  match mbuf_borrow st alloc with
  | none => some (m, none, st)
  | some (nbuf, st') =>
      match mbuf_copy (precopy cb nbuf) addr (fun a => m.data (a - m.base))
          (m.base + m.wpos - addr) with
      | none => none
      | some n2 => some ({ m with wpos := addr - m.base }, some n2, st')

/-- `mbuf_setup` (src/cc_mbuf.c:305-316): `mbuf_chunk_size = chunk`,
`mbuf_offset = mbuf_chunk_size - MBUF_HDR_SIZE` over `uint32_t`, then
`ASSERT(mbuf_offset > 0 && mbuf_offset < mbuf_chunk_size)`.  `hdr` stands
for the constant `MBUF_HDR_SIZE` (a `sizeof`, below `2^32`), and `chunk`
for the `uint32_t` argument. -/
def mbuf_setup (hdr : Nat) (st : MbufState) (chunk : Nat) :
    Option MbufState :=
  let off := (chunk + (2 ^ 32 - hdr)) % 2 ^ 32
  if 0 < off ∧ off < chunk then
    some { st with chunk_size := chunk, offset := off }
  else
    none

/-- The readable bytes of `m` in order: the contents of `[rpos, wpos)`. -/
def readList (m : Mbuf) : List Nat :=
  (List.range (mbuf_rsize m)).map (fun i => m.data (m.rpos + i))

/-! ## Helper lemmas -/

theorem mbuf_inv_def (m : Mbuf) :
    mbuf_inv m ↔ m.rpos ≤ m.wpos ∧ m.wpos ≤ m.cap :=
  Iff.rfl

theorem mbuf_copy_eq_some (m : Mbuf) (addr : Nat) (src : Nat → Nat) (n : Nat)
    (hn : n ≠ 0) (hfull : ¬ mbuf_full m) (hsp : n ≤ mbuf_wsize m)
    (hov : addr < m.base ∨ m.base + m.cap ≤ addr) :
    mbuf_copy m addr src n =
      some { m with
             data := fun i =>
               if m.wpos ≤ i ∧ i < m.wpos + n then src (addr + (i - m.wpos))
               else m.data i,
             wpos := m.wpos + n } := by
  unfold mbuf_copy
  rw [if_neg hn, if_neg (not_not_intro ⟨hfull, hsp⟩),
    if_neg (not_not_intro hov)]

theorem mbuf_copy_some_inv (m m' : Mbuf) (addr : Nat) (src : Nat → Nat)
    (n : Nat) (h : mbuf_copy m addr src n = some m') :
    (n = 0 ∧ m' = m) ∨
    (n ≠ 0 ∧ ¬ mbuf_full m ∧ n ≤ mbuf_wsize m ∧
      (addr < m.base ∨ m.base + m.cap ≤ addr) ∧
      m' = { m with
             data := fun i =>
               if m.wpos ≤ i ∧ i < m.wpos + n then src (addr + (i - m.wpos))
               else m.data i,
             wpos := m.wpos + n }) := by
  unfold mbuf_copy at h
  by_cases h0 : n = 0
  · rw [if_pos h0] at h
    exact Or.inl ⟨h0, (Option.some_injective _ h).symm⟩
  · rw [if_neg h0] at h
    by_cases h1 : ¬ mbuf_full m ∧ n ≤ mbuf_wsize m
    · rw [if_neg (not_not_intro h1)] at h
      by_cases h2 : addr < m.base ∨ m.base + m.cap ≤ addr
      · rw [if_neg (not_not_intro h2)] at h
        exact Or.inr ⟨h0, h1.1, h1.2, h2, (Option.some_injective _ h).symm⟩
      · rw [if_pos h2] at h
        exact Option.noConfusion h
    · rw [if_pos h1] at h
      exact Option.noConfusion h

theorem mbuf_copy_inv (m m' : Mbuf) (addr : Nat) (src : Nat → Nat) (n : Nat)
    (hm : mbuf_inv m) (h : mbuf_copy m addr src n = some m') : mbuf_inv m' := by
  obtain ⟨h1, h2⟩ := hm
  rcases mbuf_copy_some_inv m m' addr src n h with ⟨_, rfl⟩ | ⟨_, _, hsp, _, rfl⟩
  · exact ⟨h1, h2⟩
  · unfold mbuf_wsize at hsp
    rw [mbuf_inv_def]
    exact ⟨show m.rpos ≤ m.wpos + n by omega,
      show m.wpos + n ≤ m.cap by omega⟩

theorem mbuf_borrow_eq (st : MbufState) (alloc : Option AllocResult) :
    mbuf_borrow st alloc =
      match st.free with
      | b :: rest => some (mbuf_reset b, { st with free := rest })
      | [] =>
          match alloc with
          | none => none
          | some a =>
              some (mbuf_reset
                (Mbuf.mk a.buf st.offset a.junk_rpos a.junk_wpos a.mem), st) := by
  obtain ⟨cs, off, free⟩ := st
  cases free <;> cases alloc <;> rfl

theorem mbuf_borrow_cursors (st : MbufState) (alloc : Option AllocResult)
    (m : Mbuf) (st' : MbufState) (h : mbuf_borrow st alloc = some (m, st')) :
    m.rpos = 0 ∧ m.wpos = 0 := by
  rw [mbuf_borrow_eq] at h
  obtain ⟨cs, off, free⟩ := st
  cases free with
  | cons b rest =>
      simp only [Option.some.injEq, Prod.mk.injEq] at h
      obtain ⟨h1, _⟩ := h
      rw [← h1]
      exact ⟨rfl, rfl⟩
  | nil =>
      cases alloc with
      | none => exact Option.noConfusion h
      | some a =>
          simp only [Option.some.injEq, Prod.mk.injEq] at h
          obtain ⟨h1, _⟩ := h
          rw [← h1]
          exact ⟨rfl, rfl⟩

theorem mbuf_split_some_inv (st : MbufState) (alloc : Option AllocResult)
    (m : Mbuf) (addr : Nat) (cb : Option (Mbuf → Mbuf)) (m' n2 : Mbuf)
    (st' : MbufState)
    (h : mbuf_split st alloc m addr cb = some (m', some n2, st')) :
    ∃ nbuf, mbuf_borrow st alloc = some (nbuf, st') ∧
      mbuf_copy (precopy cb nbuf) addr (fun a => m.data (a - m.base))
        (m.base + m.wpos - addr) = some n2 ∧
      m' = { m with wpos := addr - m.base } := by
  unfold mbuf_split at h
  split at h
  · simp at h
  · rename_i nbuf st1 hb
    split at h
    · exact Option.noConfusion h
    · rename_i nn hc
      simp only [Option.some.injEq, Prod.mk.injEq] at h
      obtain ⟨e1, e2, e3⟩ := h
      subst e3
      exact ⟨nbuf, hb, by rw [hc, e2], e1.symm⟩

/-! ## Claim theorems -/

/-- C10: for every buffer `b` and every `addr`, `copy(b, addr, 0)` returns
immediately with `b` entirely unchanged and never triggers any assertion,
even when `writable_size(b) = 0` or `addr` lies inside `b`'s backing
region: the space and overlap checks are skipped whenever `n = 0`. -/
theorem copy_zero_noop (m : Mbuf) (addr : Nat) (src : Nat → Nat) :
    mbuf_copy m addr src 0 = some m := by
  unfold mbuf_copy
  rw [if_pos rfl]

/-- C5: for every buffer `b` and every `n` strictly greater than
`writable_size(b)`, `copy(b, addr, n)` triggers the fatal-assertion path,
which produces no modified buffer (no partial write ever occurs,
since the assert precedes the memcpy). -/
theorem copy_no_space_fatal (m : Mbuf) (addr : Nat) (src : Nat → Nat)
    (n : Nat) (h : mbuf_wsize m < n) : mbuf_copy m addr src n = none := by
  unfold mbuf_copy
  rw [if_neg (by omega), if_pos (fun hc => absurd hc.2 (by omega))]

theorem copy_no_space_fatal_witness :
    mbuf_wsize (Mbuf.mk 0 4 0 0 (fun _ => 0)) < 5 ∧
    mbuf_copy (Mbuf.mk 0 4 0 0 (fun _ => 0)) 100 (fun _ => 1) 5 = none :=
  ⟨by decide, copy_no_space_fatal _ 100 _ 5 (by decide)⟩

/-- C4 counterexample: the claim says every `copy(b, addr, n)` with `n > 0`
whose source range `[addr, addr+n)` overlaps the backing memory
`[start, end)` hits the fatal assertion.  Concretely, for the buffer at
addresses `[10, 14)` with all cursors at `start`, the call with
`addr = 9`, `n = 2` has overlapping ranges (`[9, 11) ∩ [10, 14) ≠ ∅`),
yet the assert `addr < start || addr >= end` passes and the copy
completes. -/
theorem copy_overlap_range_counterexample :
    0 < 2 ∧ (9 < 10 + 4 ∧ 10 < 9 + 2) ∧
    ¬ (mbuf_copy (Mbuf.mk 10 4 0 0 (fun _ => 0)) 9 (fun _ => 7) 2 = none) := by
  refine ⟨by decide, ⟨by decide, by decide⟩, fun h => ?_⟩
  have h2 : (mbuf_copy (Mbuf.mk 10 4 0 0 (fun _ => 0)) 9
      (fun _ => 7) 2).isSome = true := rfl
  rw [h] at h2
  exact Bool.noConfusion h2

/-- C4 (amended): for every call to `copy(b, addr, n)` with `n > 0` that
satisfies the space precondition, the fatal assertion is triggered exactly
when the starting source address `addr` itself lies within the buffer's
backing memory `[start, end)`; a source range that begins before `start`
and extends into the backing memory is not detected. -/
theorem copy_overlap_assert_iff (m : Mbuf) (addr : Nat) (src : Nat → Nat)
    (n : Nat) (h0 : 0 < n) (hsp : n ≤ mbuf_wsize m) :
    (mbuf_copy m addr src n = none ↔
      m.base ≤ addr ∧ addr < m.base + m.cap) := by
  have hfull : ¬ mbuf_full m := by
    unfold mbuf_full
    unfold mbuf_wsize at hsp
    omega
  unfold mbuf_copy
  rw [if_neg (by omega), if_neg (not_not_intro ⟨hfull, hsp⟩)]
  by_cases h2 : addr < m.base ∨ m.base + m.cap ≤ addr
  · rw [if_neg (not_not_intro h2)]
    exact ⟨fun hc => Option.noConfusion hc, fun hc => absurd hc (by omega)⟩
  · rw [if_pos h2]
    exact ⟨fun _ => ⟨by omega, by omega⟩, fun _ => rfl⟩

theorem copy_overlap_assert_iff_witness :
    (0 < 2 ∧ 2 ≤ mbuf_wsize (Mbuf.mk 10 4 0 0 (fun _ => 0))) ∧
    (mbuf_copy (Mbuf.mk 10 4 0 0 (fun _ => 0)) 11 (fun _ => 1) 2 = none ↔
      10 ≤ 11 ∧ 11 < 10 + 4) :=
  ⟨⟨by decide, by decide⟩,
    copy_overlap_assert_iff (Mbuf.mk 10 4 0 0 (fun _ => 0)) 11
      (fun _ => 1) 2 (by decide) (by decide)⟩

/-- C1: after a reset the cursor ordering `start ≤ rpos ≤ wpos ≤ end`
holds, and the ordering is preserved by every operation (reset, copy,
copy_bstring, shift_left, shift_right, split) whose stated preconditions
hold (for copy: the asserts pass, i.e. the call returns; for split: the
cut address lies in `[rpos, wpos]` and the precopy callback preserves the
invariant, it being itself a sequence of copies). -/
theorem mbuf_ops_preserve_inv (m : Mbuf) (hm : mbuf_inv m) :
    mbuf_inv (mbuf_reset m) ∧
    (∀ addr src n m', mbuf_copy m addr src n = some m' → mbuf_inv m') ∧
    (∀ src b m', mbuf_copy_bstring m src b = some m' → mbuf_inv m') ∧
    mbuf_inv (mbuf_lshift m) ∧
    mbuf_inv (mbuf_rshift m) ∧
    (∀ st alloc addr cb m' n2 st',
      (∀ f, cb = some f → ∀ b, mbuf_inv b → mbuf_inv (f b)) →
      m.base + m.rpos ≤ addr → addr ≤ m.base + m.wpos →
      mbuf_split st alloc m addr cb = some (m', some n2, st') →
      mbuf_inv m' ∧ mbuf_inv n2) := by
  obtain ⟨h1, h2⟩ := hm
  refine ⟨⟨Nat.le_refl 0, Nat.zero_le _⟩, ?_, ?_, ?_, ?_, ?_⟩
  · intro addr src n m' h
    exact mbuf_copy_inv m m' addr src n ⟨h1, h2⟩ h
  · intro src b m' h
    exact mbuf_copy_inv m m' b.addr src b.len ⟨h1, h2⟩ h
  · exact ⟨Nat.zero_le _, show mbuf_rsize m ≤ m.cap by unfold mbuf_rsize; omega⟩
  · exact ⟨show m.cap - mbuf_rsize m ≤ m.cap from Nat.sub_le _ _, Nat.le_refl _⟩
  · intro st alloc addr cb m' n2 st' hcb hlo hhi hsplit
    obtain ⟨nbuf, hb, hc, hm'⟩ :=
      mbuf_split_some_inv st alloc m addr cb m' n2 st' hsplit
    constructor
    · rw [hm']
      exact ⟨show m.rpos ≤ addr - m.base by omega,
        show addr - m.base ≤ m.cap by omega⟩
    · obtain ⟨hr0, hw0⟩ := mbuf_borrow_cursors st alloc nbuf st' hb
      have hnb : mbuf_inv nbuf := ⟨by omega, by omega⟩
      have hn1 : mbuf_inv (precopy cb nbuf) := by
        cases cb with
        | none => exact hnb
        | some f => exact hcb f rfl nbuf hnb
      exact mbuf_copy_inv _ n2 addr _ _ hn1 hc

def wM : Mbuf :=
  Mbuf.mk 0 8 2 5 (fun i => i + 10)

def wPooled : Mbuf :=
  Mbuf.mk 100 8 3 7 (fun _ => 0)

def wSt : MbufState :=
  MbufState.mk 0 8 [wPooled]

theorem mbuf_ops_preserve_inv_witness :
    mbuf_inv (mbuf_reset wM) ∧
    (∀ addr src n m', mbuf_copy wM addr src n = some m' → mbuf_inv m') ∧
    (∀ src b m', mbuf_copy_bstring wM src b = some m' → mbuf_inv m') ∧
    mbuf_inv (mbuf_lshift wM) ∧
    mbuf_inv (mbuf_rshift wM) ∧
    (∀ st alloc addr cb m' n2 st',
      (∀ f, cb = some f → ∀ b, mbuf_inv b → mbuf_inv (f b)) →
      wM.base + wM.rpos ≤ addr → addr ≤ wM.base + wM.wpos →
      mbuf_split st alloc wM addr cb = some (m', some n2, st') →
      mbuf_inv m' ∧ mbuf_inv n2) :=
  mbuf_ops_preserve_inv wM (by decide)

/-- C2: for every buffer `b` whose body has the module capacity, every
external (non-overlapping) byte source and every `n ≤ capacity()`:
after `reset(b)` then `copy(b, data, n)`, the readable region
`[rpos, wpos)` contains exactly `data[0..n)` and `wpos - rpos = n`. -/
theorem reset_copy_roundtrip (st : MbufState) (m : Mbuf) (addr : Nat)
    (src : Nat → Nat) (n : Nat)
    (hcap : m.cap = mbuf_capacity st) (hn : n ≤ mbuf_capacity st)
    (hov : addr < m.base ∨ m.base + m.cap ≤ addr) :
    ∃ m', mbuf_copy (mbuf_reset m) addr src n = some m' ∧
      mbuf_rsize m' = n ∧
      (∀ i, i < n → m'.data (m'.rpos + i) = src (addr + i)) ∧
      readList m' = (List.range n).map (fun i => src (addr + i)) := by
  unfold mbuf_capacity at hcap hn
  by_cases h0 : n = 0
  · subst h0
    refine ⟨mbuf_reset m, by unfold mbuf_copy; rw [if_pos rfl], rfl,
      fun i hi => absurd hi (by omega), ?_⟩
    unfold readList mbuf_rsize mbuf_reset
    simp
  · have hwp : (mbuf_reset m).wpos = 0 := rfl
    have hfull : ¬ mbuf_full (mbuf_reset m) := by
      unfold mbuf_full
      rw [hwp]
      show ¬ (0 = m.cap)
      omega
    have hsp : n ≤ mbuf_wsize (mbuf_reset m) := by
      unfold mbuf_wsize
      rw [hwp]
      show n ≤ m.cap - 0
      omega
    have hov' : addr < (mbuf_reset m).base ∨
        (mbuf_reset m).base + (mbuf_reset m).cap ≤ addr := hov
    rw [mbuf_copy_eq_some (mbuf_reset m) addr src n h0 hfull hsp hov']
    refine ⟨_, rfl, ?_, ?_, ?_⟩
    · show (0 : Nat) + n - 0 = n
      omega
    · intro i hi
      show (if (0 : Nat) ≤ 0 + i ∧ 0 + i < 0 + n
          then src (addr + (0 + i - 0)) else m.data (0 + i)) = src (addr + i)
      rw [if_pos ⟨by omega, by omega⟩]
      congr 1
      omega
    · unfold readList mbuf_rsize
      show (List.range (0 + n - 0)).map _ = _
      have hrn : (0 : Nat) + n - 0 = n := by omega
      rw [hrn]
      apply List.map_congr_left
      intro i hi
      rw [List.mem_range] at hi
      show (if (0 : Nat) ≤ 0 + i ∧ 0 + i < 0 + n
          then src (addr + (0 + i - 0)) else m.data (0 + i)) = src (addr + i)
      rw [if_pos ⟨by omega, by omega⟩]
      congr 1
      omega

theorem reset_copy_roundtrip_witness :
    wM.cap = mbuf_capacity wSt ∧ 3 ≤ mbuf_capacity wSt ∧
    (50 < wM.base ∨ wM.base + wM.cap ≤ 50) ∧
    (∃ m', mbuf_copy (mbuf_reset wM) 50 (fun a => a * 2) 3 = some m' ∧
      mbuf_rsize m' = 3 ∧
      (∀ i, i < 3 → m'.data (m'.rpos + i) = (fun a => a * 2) (50 + i)) ∧
      readList m' = (List.range 3).map (fun i => (fun a => a * 2) (50 + i))) :=
  ⟨by decide, by decide, by decide,
    reset_copy_roundtrip wSt wM 50 (fun a => a * 2) 3 (by decide) (by decide)
      (by decide)⟩

/-- C6: for every buffer satisfying the cursor invariant, `shift_left`
moves the bytes of `[rpos, wpos)` to `[start, start + size)` preserving
values and order (`size = wpos - rpos`; the move semantics make this
correct even though the two ranges may overlap), then sets
`rpos = start`, `wpos = start + size`; `readable_size` is unchanged. -/
theorem lshift_preserves_readable (m : Mbuf) (hm : mbuf_inv m) :
    (mbuf_lshift m).rpos = 0 ∧
    (mbuf_lshift m).wpos = mbuf_rsize m ∧
    mbuf_rsize (mbuf_lshift m) = mbuf_rsize m ∧
    (∀ i, i < mbuf_rsize m → (mbuf_lshift m).data i = m.data (m.rpos + i)) ∧
    readList (mbuf_lshift m) = readList m := by
  refine ⟨rfl, rfl, ?_, ?_, ?_⟩
  · show mbuf_rsize m - 0 = mbuf_rsize m
    omega
  · intro i hi
    show (if i < mbuf_rsize m then m.data (m.rpos + i) else m.data i) =
      m.data (m.rpos + i)
    rw [if_pos hi]
  · unfold readList
    have hr : mbuf_rsize (mbuf_lshift m) = mbuf_rsize m := by
      show mbuf_rsize m - 0 = mbuf_rsize m
      omega
    rw [hr]
    apply List.map_congr_left
    intro i hi
    rw [List.mem_range] at hi
    show (if 0 + i < mbuf_rsize m then m.data (m.rpos + (0 + i))
        else m.data (0 + i)) = m.data (m.rpos + i)
    rw [if_pos (by omega)]
    congr 1
    omega

theorem lshift_preserves_readable_witness :
    mbuf_inv wM ∧
    ((mbuf_lshift wM).rpos = 0 ∧
      (mbuf_lshift wM).wpos = mbuf_rsize wM ∧
      mbuf_rsize (mbuf_lshift wM) = mbuf_rsize wM ∧
      (∀ i, i < mbuf_rsize wM →
        (mbuf_lshift wM).data i = wM.data (wM.rpos + i)) ∧
      readList (mbuf_lshift wM) = readList wM) :=
  ⟨by decide, lshift_preserves_readable wM (by decide)⟩

/-- C9: split is atomic on failure.  When the pool cannot supply a new
buffer (free list empty, allocation failing), `split` returns the failure
signal with `b` completely unchanged (cursors, contents and pool state
retain their prior values); the result does not depend on the precopy
callback, which is never invoked. -/
theorem split_oom_unchanged (st : MbufState) (m : Mbuf) (addr : Nat)
    (cb : Option (Mbuf → Mbuf)) (hfree : st.free = []) :
    mbuf_split st none m addr cb = some (m, none, st) := by
  obtain ⟨cs, off, free⟩ := st
  simp only at hfree
  subst hfree
  rfl

theorem split_oom_unchanged_witness :
    (MbufState.mk 0 8 []).free = [] ∧
    mbuf_split (MbufState.mk 0 8 []) none wM 3 none =
      some (wM, none, MbufState.mk 0 8 []) :=
  ⟨rfl, split_oom_unchanged (MbufState.mk 0 8 []) wM 3 none rfl⟩

/-- C7: every successful `borrow()` hands back a buffer on which `reset()`
has been applied (`rpos = wpos = start`), so it has `readable_size() = 0`
and `writable_size() = capacity()` — whether recycled from the free list
(whose buffers share the module capacity) or freshly created; and when the
free list is empty and allocation fails, `borrow()` returns the failure
signal rather than aborting. -/
theorem borrow_reset_spec (st : MbufState) (alloc : Option AllocResult)
    (hhomog : ∀ b ∈ st.free, b.cap = st.offset) :
    (∀ m st', mbuf_borrow st alloc = some (m, st') →
      m.rpos = 0 ∧ m.wpos = 0 ∧ mbuf_rsize m = 0 ∧
      mbuf_wsize m = mbuf_capacity st) ∧
    (st.free = [] → alloc = none → mbuf_borrow st alloc = none) := by
  obtain ⟨cs, off, free⟩ := st
  constructor
  · intro m st' h
    rw [mbuf_borrow_eq] at h
    simp only at h hhomog
    cases free with
    | cons b rest =>
        simp only [Option.some.injEq, Prod.mk.injEq] at h
        obtain ⟨e1, _⟩ := h
        rw [← e1]
        refine ⟨rfl, rfl, rfl, ?_⟩
        have hb : b.cap = off := hhomog b (List.mem_cons_self b rest)
        show b.cap - 0 = off
        omega
    | nil =>
        cases alloc with
        | none => exact Option.noConfusion h
        | some a =>
            simp only [Option.some.injEq, Prod.mk.injEq] at h
            obtain ⟨e1, _⟩ := h
            rw [← e1]
            refine ⟨rfl, rfl, rfl, ?_⟩
            show off - 0 = off
            omega
  · intro hf ha
    simp only at hf
    subst hf
    subst ha
    rfl

theorem borrow_reset_spec_witness :
    (∀ b ∈ wSt.free, b.cap = wSt.offset) ∧
    ((∀ m st', mbuf_borrow wSt none = some (m, st') →
      m.rpos = 0 ∧ m.wpos = 0 ∧ mbuf_rsize m = 0 ∧
      mbuf_wsize m = mbuf_capacity wSt) ∧
    (wSt.free = [] → none = (none : Option AllocResult) →
      mbuf_borrow wSt none = none)) :=
  ⟨fun b hb => by
      rw [show wSt.free = [wPooled] from rfl, List.mem_singleton] at hb
      rw [hb]
      rfl,
    borrow_reset_spec wSt none (fun b hb => by
      rw [show wSt.free = [wPooled] from rfl, List.mem_singleton] at hb
      rw [hb]
      rfl)⟩

/-- C8: after a single `setup(chunk_size)` call that passes its assert,
`capacity()` returns `chunk_size - header_size`, and this value equals
`end - start` for every buffer created afterwards (until setup is called
again).  `hdr` is the constant `MBUF_HDR_SIZE`; both it and the `uint32_t`
argument are below `2^32`. -/
theorem setup_capacity_const (hdr chunk : Nat) (st st' : MbufState)
    (hh : hdr < 2 ^ 32) (hc : chunk < 2 ^ 32)
    (hsetup : mbuf_setup hdr st chunk = some st') :
    mbuf_capacity st' = chunk - hdr ∧ hdr ≤ chunk ∧
    (∀ alloc m, mbuf_create st' alloc = some m →
      m.cap = mbuf_capacity st') := by
  unfold mbuf_setup at hsetup
  by_cases hcond : 0 < (chunk + (2 ^ 32 - hdr)) % 2 ^ 32 ∧
      (chunk + (2 ^ 32 - hdr)) % 2 ^ 32 < chunk
  · rw [if_pos hcond] at hsetup
    obtain ⟨hpos, hlt⟩ := hcond
    have hoff : (chunk + (2 ^ 32 - hdr)) % 2 ^ 32 = chunk - hdr := by
      by_cases hle : hdr ≤ chunk
      · have he : chunk + (2 ^ 32 - hdr) = (chunk - hdr) + 2 ^ 32 := by omega
        rw [he, Nat.add_mod_right, Nat.mod_eq_of_lt (by omega)]
      · exfalso
        have hsmall : chunk + (2 ^ 32 - hdr) < 2 ^ 32 := by omega
        rw [Nat.mod_eq_of_lt hsmall] at hlt
        omega
    simp only [Option.some.injEq] at hsetup
    rw [← hsetup]
    refine ⟨hoff, by omega, ?_⟩
    intro alloc m hm
    cases alloc with
    | none => exact Option.noConfusion hm
    | some a =>
        simp only [mbuf_create, Option.some.injEq] at hm
        rw [← hm]
        rfl
  · rw [if_neg hcond] at hsetup
    exact Option.noConfusion hsetup

theorem setup_capacity_const_witness :
    64 < 2 ^ 32 ∧ 2048 < 2 ^ 32 ∧
    (mbuf_capacity (MbufState.mk 2048 1984 []) = 2048 - 64 ∧ 64 ≤ 2048 ∧
      (∀ alloc m, mbuf_create (MbufState.mk 2048 1984 []) alloc = some m →
        m.cap = mbuf_capacity (MbufState.mk 2048 1984 []))) :=
  ⟨by decide, by decide,
    setup_capacity_const 64 2048 (MbufState.mk 0 0 [])
      (MbufState.mk 2048 1984 []) (by decide) (by decide) rfl⟩

/-- C3: for every buffer `b` and cut address `addr` in `[rpos, wpos]`, when
`split(b, addr, cb, cbarg)` succeeds, concatenating the readable bytes
remaining in `b` with the readable bytes of the returned buffer (skipping
the bytes written by the precopy callback, i.e. keeping only the last
`wpos - addr` readable bytes of the new buffer) reproduces exactly the
bytes that were in `[rpos, wpos)` of `b` before the call, and `b`'s `wpos`
afterwards equals `addr`. -/
theorem split_concat_readable (st : MbufState) (alloc : Option AllocResult)
    (m : Mbuf) (addr : Nat) (cb : Option (Mbuf → Mbuf)) (m' n2 : Mbuf)
    (st' : MbufState)
    (hm : mbuf_inv m)
    (hlo : m.base + m.rpos ≤ addr) (hhi : addr ≤ m.base + m.wpos)
    (hsplit : mbuf_split st alloc m addr cb = some (m', some n2, st')) :
    m'.base + m'.wpos = addr ∧
    readList m' ++ (List.range (m.base + m.wpos - addr)).map
        (fun i => n2.data (n2.wpos - (m.base + m.wpos - addr) + i))
      = readList m := by
  obtain ⟨h1, h2⟩ := hm
  have hba : m.base ≤ addr := by omega
  obtain ⟨nbuf, hb, hc, hm'⟩ :=
    mbuf_split_some_inv st alloc m addr cb m' n2 st' hsplit
  subst hm'
  constructor
  · show m.base + (addr - m.base) = addr
    omega
  rcases mbuf_copy_some_inv _ _ _ _ _ hc with ⟨hsz, _⟩ |
    ⟨hsz, _, _, _, hn2⟩
  · simp only [hsz, List.range_zero, List.map_nil, List.append_nil]
    unfold readList mbuf_rsize
    have ha : addr - m.base = m.wpos := by omega
    show (List.range (addr - m.base - m.rpos)).map
        (fun i => m.data (m.rpos + i)) =
      (List.range (m.wpos - m.rpos)).map (fun i => m.data (m.rpos + i))
    rw [ha]
  · have hw2 : n2.wpos =
        (precopy cb nbuf).wpos + (m.base + m.wpos - addr) := by
      rw [hn2]
    have hd2 : ∀ j, n2.data j =
        if (precopy cb nbuf).wpos ≤ j ∧
            j < (precopy cb nbuf).wpos + (m.base + m.wpos - addr) then
          m.data (addr + (j - (precopy cb nbuf).wpos) - m.base)
        else (precopy cb nbuf).data j := by
      intro j
      rw [hn2]
    have hk : m.wpos - m.rpos =
        (addr - m.base - m.rpos) + (m.base + m.wpos - addr) := by omega
    unfold readList mbuf_rsize
    dsimp only
    rw [hk, List.range_add, List.map_append, List.map_map]
    congr 1
    apply List.map_congr_left
    intro i hi
    rw [List.mem_range] at hi
    simp only [Function.comp_apply]
    rw [hw2]
    have e1 : (precopy cb nbuf).wpos + (m.base + m.wpos - addr) -
        (m.base + m.wpos - addr) + i = (precopy cb nbuf).wpos + i := by
      omega
    rw [e1, hd2]
    rw [if_pos ⟨by omega, by omega⟩]
    have e2 : addr + ((precopy cb nbuf).wpos + i - (precopy cb nbuf).wpos) -
        m.base = m.rpos + (addr - m.base - m.rpos + i) := by
      omega
    rw [e2]

def wM2 : Mbuf :=
  Mbuf.mk 0 8 2 3 (fun i => i + 10)

def wN2 : Mbuf :=
  Mbuf.mk 100 8 0 2
    (fun i => if 0 ≤ i ∧ i < 2 then wM.data (3 + (i - 0) - wM.base) else 0)

theorem split_concat_readable_witness :
    mbuf_inv wM ∧ wM.base + wM.rpos ≤ 3 ∧ 3 ≤ wM.base + wM.wpos ∧
    (wM2.base + wM2.wpos = 3 ∧
      readList wM2 ++ (List.range (wM.base + wM.wpos - 3)).map
          (fun i => wN2.data (wN2.wpos - (wM.base + wM.wpos - 3) + i))
        = readList wM) :=
  ⟨by decide, by decide, by decide,
    split_concat_readable wSt none wM 3 none wM2 wN2 (MbufState.mk 0 8 [])
      (by decide) (by decide) (by decide) rfl⟩
